import Mathlib

/-!
Verification of the phonetic fuzzy-matching engine in
`MVPs/phonetic-cli/main.py`: the soundex-style phonetic encoder, the
Levenshtein edit distance, the n-gram Jaccard similarity, the scoring and
ranking pipeline (`find_matches_db`, `find_compound_matches_db`,
`find_matches`) over an abstract candidate store, and the keystroke handler
of the IME loop (`run_realtime`).

Strings are modelled as `List Char`.  Python float arithmetic is modelled
exactly: the rational parts of scores as exact rational/real arithmetic and
`math.log10` as `Real.logb 10`.  A SQLite table is modelled as a list of
rows; the one SQL query in `find_matches_db` is modelled by filtering,
ordering and truncating that list.
-/

/-- Convenience: string literal to `List Char`. -/
def chars (s : String) : List Char := s.toList

/-- Python `str.lower()` (the source data is ASCII romanizations; core `Char.toLower`
lower-cases exactly the ASCII letters). -/
def pyLower (s : List Char) : List Char := s.map Char.toLower

/-- Python `str.strip()`: drop leading and trailing whitespace. -/
def pyStrip (s : List Char) : List Char :=
  ((s.dropWhile Char.isWhitespace).reverse.dropWhile Char.isWhitespace).reverse

/-- Python `.replace(" ", "")`: drop every space character. -/
def removeSpaces (s : List Char) : List Char := s.filter (fun c => c ≠ ' ')

/-- Input normalization used by `find_matches_db` and
`find_compound_matches_db`: `user_input.lower().strip().replace(" ", "")`. -/
def normalizeInput (s : List Char) : List Char := removeSpaces (pyStrip (pyLower s))

/-- Python `str.replace` specialised to a two-character pattern `[a, b]`
replaced by the single character `r` (every pattern in `thai_soundex` has
exactly two characters): non-overlapping, left-to-right. -/
def replace2 (a b r : Char) : List Char → List Char
  | [] => []
  | [x] => [x]
  | x :: y :: rest =>
      if x = a ∧ y = b then r :: replace2 a b r rest
      else x :: replace2 a b r (y :: rest)

/-- The ordered multi-character substitutions of `thai_soundex`
(`replacements` in the source): each two-character pattern with its
single-character replacement. -/
def soundexReplacements : List (Char × Char × Char) :=
  [('n', 'g', '4'), ('c', 'h', '6'), ('k', 'h', '1'), ('p', 'h', '2'), ('t', 'h', '3'),
   ('a', 'i', 'I'), ('a', 'y', 'I'), ('e', 'i', 'I'), ('a', 'e', 'E'), ('e', 'a', 'E'),
   ('e', 'e', 'I'), ('i', 'i', 'I'), ('o', 'o', 'U'), ('o', 'u', 'U'), ('u', 'e', 'U')]

/-- Apply all multi-character substitutions, in order (the source's
`for old, new in replacements: text = text.replace(old, new)`). -/
def applyReplacements (s : List Char) : List Char :=
  soundexReplacements.foldl (fun t p => replace2 p.1 p.2.1 p.2.2 t) s

/-- The dictionary `char_map` of `thai_soundex`, as an association list. -/
def charMapPairs : List (Char × Char) :=
  [('k', '1'), ('c', '1'), ('g', '1'),
   ('p', '2'), ('b', '2'),
   ('t', '3'), ('d', '3'),
   ('n', '4'), ('m', '4'),
   ('l', '5'), ('r', '5'),
   ('s', '6'), ('z', '6'), ('j', '6'),
   ('w', '7'), ('v', '7'),
   ('y', '8'), ('h', '9'),
   ('a', 'A'), ('e', 'E'), ('i', 'I'), ('o', 'O'), ('u', 'U')]

/-- Dictionary lookup `char_map[char]` (`None` when `char not in char_map`). -/
def charMap (c : Char) : Option Char := charMapPairs.lookup c

/-- The character loop of `thai_soundex`: map through `char_map`, otherwise
keep characters already in `"123456789AEIOU"`, drop the rest. -/
def soundexFilter (s : List Char) : List Char :=
  s.filterMap (fun c =>
    match charMap c with
    | some d => some d
    | none => if c ∈ chars "123456789AEIOU" then some c else none)

/-- Collapse consecutive duplicate codes (the `final` loop of
`thai_soundex`). -/
def collapseRuns : List Char → List Char
  | [] => []
  | [a] => [a]
  | a :: b :: rest =>
      if a = b then collapseRuns (b :: rest) else a :: collapseRuns (b :: rest)

/-- Python slice `l[:k]` for an arbitrary integer `k` (negative `k` keeps
all but the last `|k|` elements). -/
def pySlice (l : List Char) (k : ℤ) : List Char :=
  if 0 ≤ k then l.take k.toNat else l.take (l.length - k.natAbs)

/-- Function `thai_soundex(romanized, length=6)`: lower-case and strip, return `""`
for empty text, apply the multi-character substitutions, map and filter through
`char_map`, collapse consecutive duplicates, truncate to `length`. -/
def thai_soundex (romanized : List Char) (length : ℤ := 6) : List Char :=
  let text := pyStrip (pyLower romanized)
  if text = [] then []
  else pySlice (collapseRuns (soundexFilter (applyReplacements text))) length

/-- Levenshtein distance by its defining recurrence (unit-cost insert,
delete, substitute). `levenshtein_distance` in the source computes this
function with a rolling-row dynamic program; `levenshtein_eq_lev` below
proves the two agree. -/
def lev : List Char → List Char → ℕ
  | [], ys => ys.length
  | xs, [] => xs.length
  | x :: xs, y :: ys =>
      min (lev xs (y :: ys) + 1)
        (min (lev (x :: xs) ys + 1) (lev xs ys + (if x = y then 0 else 1)))
termination_by a b => a.length + b.length

/-- One inner-loop pass of the `levenshtein_distance` dynamic program.
The list pairs each character `c2` of `s2` with
(`previous_row[j]`, `previous_row[j+1]`); `last` is `current_row[j]`.
Each step computes
`min(previous_row[j+1]+1, current_row[j]+1, previous_row[j]+(c1 != c2))`. -/
def levInner (c1 : Char) : List (Char × ℕ × ℕ) → ℕ → List ℕ
  | [], _ => []
  | (c2, p0, p1) :: rest, last =>
      let v := min (p1 + 1) (min (last + 1) (p0 + (if c1 = c2 then 0 else 1)))
      v :: levInner c1 rest v

/-- Zip `s2` with consecutive pairs of the previous row. -/
def zipPrev (s2 : List Char) (prev : List ℕ) : List (Char × ℕ × ℕ) :=
  s2.zip (prev.zip prev.tail)

/-- One outer-loop pass: `current_row = [i + 1]` followed by the inner loop. -/
def levRow (c1 : Char) (s2 : List Char) (prev : List ℕ) (i : ℕ) : List ℕ :=
  (i + 1) :: levInner c1 (zipPrev s2 prev) (i + 1)

/-- The full dynamic program: start from `previous_row = range(len(s2)+1)`
and fold the rows over `enumerate(s1)`. -/
def levRows (s1 s2 : List Char) : List ℕ :=
  (s1.enum).foldl (fun prev ic => levRow ic.2 s2 prev ic.1) (List.range (s2.length + 1))

/-- The body of `levenshtein_distance` after the argument swap:
`if len(s2) == 0: return len(s1)` then the dynamic program's
`previous_row[-1]`. -/
def levCore (s1 s2 : List Char) : ℕ :=
  if s2.length = 0 then s1.length else (levRows s1 s2).getLastD 0

/-- Function `levenshtein_distance(s1, s2)`: swap so the first argument is the longer
string (the source's recursive call immediately lands in the non-swapping
branch), then run the dynamic program. -/
def levenshtein_distance (s1 s2 : List Char) : ℕ :=
  if s1.length < s2.length then levCore s2 s1 else levCore s1 s2

/-- Edit scripts: `EditSeq a b n` holds when `a` can be rewritten to `b` by a
left-to-right alignment of total cost `n` (copy is free; substitution,
deletion and insertion cost 1).  Used to prove the metric laws of `lev`. -/
inductive EditSeq : List Char → List Char → ℕ → Prop
  | nil : EditSeq [] [] 0
  | copy (c : Char) {xs ys n} : EditSeq xs ys n → EditSeq (c :: xs) (c :: ys) n
  | subst (c d : Char) {xs ys n} : EditSeq xs ys n → EditSeq (c :: xs) (d :: ys) (n + 1)
  | del (c : Char) {xs ys n} : EditSeq xs ys n → EditSeq (c :: xs) ys (n + 1)
  | ins (d : Char) {xs ys n} : EditSeq xs ys n → EditSeq xs (d :: ys) (n + 1)

/-- Distance between prefixes read off the dynamic program: the DP fills row
`i`, column `j` with the distance between the first `i` characters of `s1`
and the first `j` characters of `s2`, which is `lev` of the reversals. -/
def levB (a b : List Char) : ℕ := lev a.reverse b.reverse

/-- Specification of a DP row past its first cell: the values
`levB A (done ++ t)` for the successive nonempty prefixes `t` of `todo`. -/
def rowTail (A done : List Char) : List Char → List ℕ
  | [] => []
  | c :: cs => levB A (done ++ [c]) :: rowTail A (done ++ [c]) cs

/-- Specification of a full DP row. -/
def rowVals (A done todo : List Char) : List ℕ := levB A done :: rowTail A done todo

/-- The set of contiguous length-`n` substrings of `s`. -/
def ngrams (s : List Char) (n : ℕ) : Finset (List Char) :=
  ((List.range (s.length - n + 1)).map (fun i => (s.drop i).take n)).toFinset

/-- Function `ngram_similarity(s1, s2, n=2)`: Jaccard similarity of the
n-gram sets, `0` when either string is shorter than `n`, when either set is
empty, or when the union is empty. -/
def ngram_similarity (s1 s2 : List Char) (n : ℕ := 2) : ℚ :=
  if s1.length < n ∨ s2.length < n then 0
  else if ngrams s1 n = ∅ ∨ ngrams s2 n = ∅ then 0
  else if 0 < (ngrams s1 n ∪ ngrams s2 n).card then
    (((ngrams s1 n ∩ ngrams s2 n).card : ℚ) / ((ngrams s1 n ∪ ngrams s2 n).card : ℚ))
  else 0

/-- A row of the `words` table: `(thai, romanized, soundex, frequency,
category)`.  The store writes `soundex = thai_soundex(romanized)` at insert
time, but the core only ever reads the stored field. -/
structure WordEntry where
  thai : List Char
  romanized : List Char
  soundex : List Char
  frequency : ℕ
  category : String
deriving DecidableEq, Repr

/-- A scored match dictionary produced by the ranking functions. -/
structure ScoredMatch where
  thai : List Char
  romanized : List Char
  soundex : List Char
  frequency : ℕ
  category : String
  score : ℝ
  match_type : String

/-- The `CASE` expression of the SQL query's `ORDER BY`: 0 for an exact
romanization match, 1 for an exact soundex match, 2 otherwise. -/
def sqlCase (input_norm input_sx : List Char) (e : WordEntry) : ℕ :=
  if e.romanized = input_norm then 0 else if e.soundex = input_sx then 1 else 2

/-- Row `a` is strictly ordered before row `b` by the query's
`ORDER BY CASE ..., frequency DESC`. -/
def sqlBefore (input_norm input_sx : List Char) (a b : WordEntry) : Prop :=
  sqlCase input_norm input_sx a < sqlCase input_norm input_sx b ∨
    (sqlCase input_norm input_sx a = sqlCase input_norm input_sx b ∧
      b.frequency < a.frequency)

instance (input_norm input_sx : List Char) :
    DecidableRel (sqlBefore input_norm input_sx) := fun a b => by
  unfold sqlBefore; infer_instance

/-- Insertion into a list sorted by the strict precedence relation `r`:
the new element goes in front of the first element that does not strictly
precede it. -/
def insertOrd (r : α → α → Prop) [DecidableRel r] (x : α) : List α → List α
  | [] => [x]
  | y :: ys => if r y x then y :: insertOrd r x ys else x :: y :: ys

/-- Insertion sort by the strict precedence relation `r` (models the SQL
`ORDER BY` and Python's stable `list.sort`; all properties proved of the
pipeline are independent of how ties are ordered). -/
def sortOrd (r : α → α → Prop) [DecidableRel r] : List α → List α
  | [] => []
  | x :: xs => insertOrd r x (sortOrd r xs)

/-- The one SQL query of `find_matches_db`: rows whose romanization equals
the normalized input, or whose soundex equals the input soundex, or whose
soundex starts with the input's soundex prefix; ordered by the `CASE`
expression and then by descending frequency; `LIMIT 100`. -/
def queryCandidates (db : List WordEntry) (input_norm input_sx input_sx_prefix : List Char) :
    List WordEntry :=
  ((sortOrd (sqlBefore input_norm input_sx)
      (db.filter (fun e =>
        e.romanized = input_norm ∨ e.soundex = input_sx ∨
          input_sx_prefix.isPrefixOf e.soundex))).take 100)

/-- The frequency boost: `min(10, math.log10(max(1, freq)) / 2)` added only
when `freq > 0`. -/
noncomputable def freqBoost (freq : ℕ) : ℝ :=
  if 0 < freq then min 10 (Real.logb 10 (max 1 (freq : ℝ)) / 2) else 0

/-- Scoring of one candidate row in `find_matches_db`: the base score and
match type from the exact / soundex-exact / soundex-partial trichotomy, plus
the n-gram boost, the prefix boost and the frequency boost. -/
noncomputable def scoreEntry (input_norm input_sx : List Char) (e : WordEntry) : ScoredMatch :=
  let bm : ℝ × String :=
    if e.romanized = input_norm then (100, "exact")
    else if e.soundex = input_sx then
      (max 0 (90 - 10 * (levenshtein_distance input_norm e.romanized : ℝ)), "soundex_exact")
    else
      (max 0 (70 - 10 * (levenshtein_distance input_norm e.romanized : ℝ)), "soundex_partial")
  let ngram_boost : ℝ :=
    (ngram_similarity input_norm e.romanized 2 : ℝ) * 15 +
      (ngram_similarity input_norm e.romanized 3 : ℝ) * 10
  let prefix_boost : ℝ :=
    if (input_norm.take 3).isPrefixOf e.romanized ∨ (e.romanized.take 3).isPrefixOf input_norm
    then 5 else 0
  { thai := e.thai
    romanized := e.romanized
    soundex := e.soundex
    frequency := e.frequency
    category := e.category
    score := bm.1 + ngram_boost + prefix_boost + freqBoost e.frequency
    match_type := bm.2 }

/-- Match `a` strictly precedes match `b` in the descending score order of
`results.sort(key=..., reverse=True)`. -/
def scoreBefore (a b : ScoredMatch) : Prop := b.score < a.score

open scoped Classical in
/-- Function `find_matches_db(user_input, conn, top_n=10)`: normalize (empty
input gives an empty result), query candidates by romanization / soundex /
soundex prefix, score each candidate, keep strictly positive scores, sort by
descending score and return the first `top_n`. -/
noncomputable def find_matches_db (user_input : List Char) (db : List WordEntry)
    (top_n : ℕ := 10) : List ScoredMatch :=
  let input_norm := normalizeInput user_input
  if input_norm = [] then []
  else
    let input_sx := thai_soundex input_norm
    let input_sx_prefix := if 3 ≤ input_sx.length then input_sx.take 3 else input_sx
    let results :=
      ((queryCandidates db input_norm input_sx input_sx_prefix).map
          (scoreEntry input_norm input_sx)).filter (fun m => 0 < m.score)
    (sortOrd scoreBefore results).take top_n

open scoped Classical in
/-- The body of the split-point loop of `find_compound_matches_db` at split
`i`, threading the accumulated `(results, seen)` pair: if both halves have a
best match scoring at least 50 and the combined text is unseen, append the
penalized compound match. -/
noncomputable def compoundStep (db : List WordEntry) (input_norm : List Char)
    (acc : List ScoredMatch × List (List Char)) (i : ℕ) :
    List ScoredMatch × List (List Char) :=
  let left := input_norm.take i
  let right := input_norm.drop i
  match find_matches_db left db 1, find_matches_db right db 1 with
  | lm :: _, rm :: _ =>
      if 50 ≤ lm.score ∧ 50 ≤ rm.score then
        let combined := lm.thai ++ rm.thai
        if combined ∈ acc.2 then acc
        else
          (acc.1 ++ [{ thai := combined
                       romanized := left ++ '+' :: right
                       soundex := []
                       frequency := 0
                       category := "compound"
                       score := (lm.score + rm.score) / 2 - 30
                       match_type := "compound" }],
            acc.2 ++ [combined])
      else acc
  | _, _ => acc

open scoped Classical in
/-- Function `find_compound_matches_db(user_input, conn, top_n=5)`: for a
normalized input of length at least 4, try every split point
`i in range(2, len - 1)`, combine the halves' best matches with the fixed
−30 penalty, deduplicate by combined text, sort descending, keep `top_n`. -/
noncomputable def find_compound_matches_db (user_input : List Char) (db : List WordEntry)
    (top_n : ℕ := 5) : List ScoredMatch :=
  let input_norm := normalizeInput user_input
  if input_norm.length < 4 then []
  else
    let results :=
      ((List.range' 2 (input_norm.length - 3)).foldl (compoundStep db input_norm) ([], [])).1
    (sortOrd scoreBefore results).take top_n

open scoped Classical in
/-- Function `find_matches(user_input, conn, top_n=5)`: merge the single-word
and compound results, re-sort by descending score, return the top `top_n`. -/
noncomputable def find_matches (user_input : List Char) (db : List WordEntry)
    (top_n : ℕ := 5) : List ScoredMatch :=
  let single := find_matches_db user_input db top_n
  let compound := find_compound_matches_db user_input db top_n
  (sortOrd scoreBefore (single ++ compound)).take top_n

/-- The mutable state of the `run_realtime` IME loop: the pending romanized
`buffer` and the committed Thai `output`. -/
structure IMEState where
  buffer : List Char
  output : List Char

/-- The suggestion list recomputed at the top of every loop iteration:
`find_matches(buffer, conn, top_n=5)` when the buffer is non-empty, else
the empty list. -/
noncomputable def suggestions (db : List WordEntry) (st : IMEState) : List ScoredMatch :=
  if st.buffer ≠ [] then find_matches st.buffer db 5 else []

/-- ASCII approximation of Python `str.isprintable` for one character
(control characters are not printable; the space is).  No verified claim
depends on its exact extension: the keys settled below (backspace, space,
digits) are all matched by earlier branches. -/
def isPrintableChar (c : Char) : Prop := 32 ≤ c.toNat ∧ c.toNat ≠ 127

instance (c : Char) : Decidable (isPrintableChar c) := by
  unfold isPrintableChar; infer_instance

open scoped Classical in
/-- One keystroke of the `run_realtime` loop, acting on `(buffer, output)`
with the suggestion list `ms` (the loop's `matches`) computed from the current buffer.  The
branches, in source order: Ctrl+C/ESC exit (state unchanged), backspace,
space (accept first), digits 1–5 (accept Nth), Enter (accept and commit the
line), any other printable character is appended to the buffer. -/
noncomputable def imeStep (db : List WordEntry) (st : IMEState) (ch : Char) : IMEState :=
  let ms := suggestions db st
  if ch = '\x03' ∨ ch = '\x1b' then st
  else if ch = '\x7f' ∨ ch = '\x08' then
    if st.buffer ≠ [] then { st with buffer := st.buffer.dropLast }
    else if st.output ≠ [] then { st with output := st.output.dropLast }
    else st
  else if ch = ' ' then
    match ms, st.buffer with
    | m :: _, _ :: _ => { buffer := [], output := st.output ++ m.thai }
    | _, _ => st
  else if ch ∈ chars "12345" then
    let idx := ch.toNat - '0'.toNat - 1
    if h : st.buffer ≠ [] ∧ ms ≠ [] ∧ idx < ms.length then
      { buffer := [], output := st.output ++ (ms.get ⟨idx, h.2.2⟩).thai }
    else st
  else if ch = '\r' ∨ ch = '\n' then
    let out1 := if h : st.buffer ≠ [] ∧ ms ≠ [] then
        st.output ++ (ms.head h.2).thai else st.output
    if out1 ≠ [] then { buffer := [], output := [] }
    else { st with output := out1 }
  else if isPrintableChar ch then { st with buffer := st.buffer ++ [ch] }
  else st

/-- Store row for the known mapping `("ka", "Y")`; its stored soundex is
`thai_soundex "ka" = "1A"`. -/
def kaEntry : WordEntry :=
  { thai := chars "Y", romanized := chars "ka", soundex := chars "1A",
    frequency := 0, category := "known" }

/-- Store row for the romanization `"kaka"`; its stored soundex is
`thai_soundex "kaka" = "1A1A"`. -/
def kakaEntry : WordEntry :=
  { thai := chars "X", romanized := chars "kaka", soundex := chars "1A1A",
    frequency := 0, category := "known" }

/-- A two-row store on which the query `"kaka"` yields both an exact single
match and a compound match. -/
def demoDb : List WordEntry := [kakaEntry, kaEntry]

/-- A one-row store used by the IME witnesses. -/
def kaDb : List WordEntry := [kaEntry]

/-- A high-frequency candidate at edit distance 1 from the input `"ka"`
whose stored soundex `"1A2" = thai_soundex "kab"` differs from the input's
soundex, so it is scored `soundex_partial`. -/
def kabEntry : WordEntry :=
  { thai := chars "B", romanized := chars "kab", soundex := chars "1A2",
    frequency := 10 ^ 20, category := "word" }

/-- A zero-frequency candidate at edit distance 1 from the input `"ka"`
whose stored soundex `"1A" = thai_soundex "ca"` equals the input's soundex,
so it is scored `soundex_exact`. -/
def caEntry : WordEntry :=
  { thai := chars "C", romanized := chars "ca", soundex := chars "1A",
    frequency := 0, category := "word" }

/-- The scored match produced for `kaEntry` on input `"ka"`. -/
noncomputable def kaM : ScoredMatch := scoreEntry (chars "ka") (chars "1A") kaEntry

/-- The scored match produced for `kakaEntry` on input `"kaka"`. -/
noncomputable def kakaM : ScoredMatch := scoreEntry (chars "kaka") (chars "1A1A") kakaEntry

/-- The scored match produced for `kakaEntry` on input `"ka"` (a
`soundex_partial` match retrieved through the soundex prefix). -/
noncomputable def kaKakaM : ScoredMatch := scoreEntry (chars "ka") (chars "1A") kakaEntry

/-- The compound match `"ka" + "ka"` produced on input `"kaka"` over
`demoDb`. -/
noncomputable def compoundM : ScoredMatch :=
  { thai := kaM.thai ++ kaM.thai
    romanized := chars "ka" ++ '+' :: chars "ka"
    soundex := []
    frequency := 0
    category := "compound"
    score := (kaM.score + kaM.score) / 2 - 30
    match_type := "compound" }

/-! ### Generic facts about the insertion sorts -/

theorem mem_insertOrd {α : Type} {r : α → α → Prop} [DecidableRel r] {x a : α}
    {l : List α} : a ∈ insertOrd r x l ↔ a = x ∨ a ∈ l := by
  induction l with
  | nil => simp [insertOrd]
  | cons y ys ih =>
    by_cases h : r y x
    · simp only [insertOrd, if_pos h, List.mem_cons, ih]
      tauto
    · simp only [insertOrd, if_neg h, List.mem_cons]

theorem mem_sortOrd {α : Type} {r : α → α → Prop} [DecidableRel r] {a : α}
    {l : List α} : a ∈ sortOrd r l ↔ a ∈ l := by
  induction l with
  | nil => simp [sortOrd]
  | cons y ys ih => simp [sortOrd, mem_insertOrd, ih]

theorem length_insertOrd {α : Type} {r : α → α → Prop} [DecidableRel r] (x : α)
    (l : List α) : (insertOrd r x l).length = l.length + 1 := by
  induction l with
  | nil => simp [insertOrd]
  | cons y ys ih =>
    by_cases h : r y x <;> simp [insertOrd, h, ih]

theorem length_sortOrd {α : Type} {r : α → α → Prop} [DecidableRel r]
    (l : List α) : (sortOrd r l).length = l.length := by
  induction l with
  | nil => rfl
  | cons y ys ih => simp [sortOrd, length_insertOrd, ih]

/-! ### The Levenshtein recurrence and its metric laws -/

theorem lev_nil (b : List Char) : lev [] b = b.length := by
  cases b <;> simp [lev]

theorem lev_nil_right (a : List Char) : lev a [] = a.length := by
  cases a <;> simp [lev]

theorem lev_cons_cons (x y : Char) (xs ys : List Char) :
    lev (x :: xs) (y :: ys) =
      min (lev xs (y :: ys) + 1)
        (min (lev (x :: xs) ys + 1) (lev xs ys + (if x = y then 0 else 1))) := by
  simp [lev]

theorem EditSeq.lev_le {a b : List Char} {n : ℕ} (h : EditSeq a b n) : lev a b ≤ n := by
  induction h with
  | nil => simp [lev]
  | copy c h ih =>
    rw [lev_cons_cons]
    refine le_trans (le_trans (min_le_right _ _) (min_le_right _ _)) ?_
    simpa using ih
  | subst c d h ih =>
    rw [lev_cons_cons]
    refine le_trans (le_trans (min_le_right _ _) (min_le_right _ _)) ?_
    have : (if c = d then 0 else 1) ≤ 1 := by split <;> omega
    omega
  | del c h ih =>
    rename_i xs ys n
    cases ys with
    | nil => rw [lev_nil_right] at ih ⊢; simpa using Nat.succ_le_succ ih
    | cons y ys' =>
      rw [lev_cons_cons]
      exact le_trans (min_le_left _ _) (by omega)
  | ins d h ih =>
    rename_i xs ys n
    cases xs with
    | nil => rw [lev_nil] at ih ⊢; simpa using Nat.succ_le_succ ih
    | cons x xs' =>
      rw [lev_cons_cons]
      exact le_trans (le_trans (min_le_right _ _) (min_le_left _ _)) (by omega)

theorem editSeq_nil_left (b : List Char) : EditSeq [] b b.length := by
  induction b with
  | nil => exact .nil
  | cons y ys ih => exact .ins y ih

theorem editSeq_nil_right (a : List Char) : EditSeq a [] a.length := by
  induction a with
  | nil => exact .nil
  | cons x xs ih => exact .del x ih

theorem lev_editSeq (a b : List Char) : EditSeq a b (lev a b) := by
  have H : ∀ N (a b : List Char), a.length + b.length ≤ N → EditSeq a b (lev a b) := by
    intro N
    induction N with
    | zero =>
      intro a b h
      have ha : a = [] := List.length_eq_zero.mp (by omega)
      have hb : b = [] := List.length_eq_zero.mp (by omega)
      subst ha; subst hb
      simpa [lev] using EditSeq.nil
    | succ N ih =>
      intro a b h
      match a, b with
      | [], b => rw [lev_nil]; exact editSeq_nil_left b
      | x :: xs, [] => rw [lev_nil_right]; exact editSeq_nil_right _
      | x :: xs, y :: ys =>
        rw [lev_cons_cons]
        simp only [List.length_cons] at h
        have h1 : EditSeq xs (y :: ys) (lev xs (y :: ys)) :=
          ih _ _ (by simp only [List.length_cons]; omega)
        have h2 : EditSeq (x :: xs) ys (lev (x :: xs) ys) :=
          ih _ _ (by simp only [List.length_cons]; omega)
        have h3 : EditSeq xs ys (lev xs ys) := ih _ _ (by omega)
        rcases min_choice (lev xs (y :: ys) + 1)
            (min (lev (x :: xs) ys + 1) (lev xs ys + (if x = y then 0 else 1))) with h' | h' <;>
          rw [h']
        · exact .del x h1
        · rcases min_choice (lev (x :: xs) ys + 1)
              (lev xs ys + (if x = y then 0 else 1)) with h'' | h'' <;> rw [h'']
          · exact .ins y h2
          · by_cases hxy : x = y
            · subst hxy
              simpa using EditSeq.copy x h3
            · simpa [hxy] using EditSeq.subst x y h3
  exact H _ a b le_rfl

theorem EditSeq.swap {a b : List Char} {n : ℕ} (h : EditSeq a b n) : EditSeq b a n := by
  induction h with
  | nil => exact .nil
  | copy c _ ih => exact .copy c ih
  | subst c d _ ih => exact .subst d c ih
  | del c _ ih => exact .ins c ih
  | ins d _ ih => exact .del d ih

theorem EditSeq.snoc_copy (e : Char) {a b : List Char} {n : ℕ} (h : EditSeq a b n) :
    EditSeq (a ++ [e]) (b ++ [e]) n := by
  induction h with
  | nil => simpa using EditSeq.copy e .nil
  | copy c _ ih => simpa using EditSeq.copy c ih
  | subst c d _ ih => simpa using EditSeq.subst c d ih
  | del c _ ih => simpa using EditSeq.del c ih
  | ins d _ ih => simpa using EditSeq.ins d ih

theorem EditSeq.snoc_subst (e f : Char) {a b : List Char} {n : ℕ} (h : EditSeq a b n) :
    EditSeq (a ++ [e]) (b ++ [f]) (n + 1) := by
  induction h with
  | nil => simpa using EditSeq.subst e f .nil
  | copy c _ ih => simpa using EditSeq.copy c ih
  | subst c d _ ih => simpa using EditSeq.subst c d ih
  | del c _ ih => simpa using EditSeq.del c ih
  | ins d _ ih => simpa using EditSeq.ins d ih

theorem EditSeq.snoc_del (e : Char) {a b : List Char} {n : ℕ} (h : EditSeq a b n) :
    EditSeq (a ++ [e]) b (n + 1) := by
  induction h with
  | nil => simpa using EditSeq.del e .nil
  | copy c _ ih => simpa using EditSeq.copy c ih
  | subst c d _ ih => simpa using EditSeq.subst c d ih
  | del c _ ih => simpa using EditSeq.del c ih
  | ins d _ ih => simpa using EditSeq.ins d ih

theorem EditSeq.snoc_ins (e : Char) {a b : List Char} {n : ℕ} (h : EditSeq a b n) :
    EditSeq a (b ++ [e]) (n + 1) := by
  induction h with
  | nil => simpa using EditSeq.ins e .nil
  | copy c _ ih => simpa using EditSeq.copy c ih
  | subst c d _ ih => simpa using EditSeq.subst c d ih
  | del c _ ih => simpa using EditSeq.del c ih
  | ins d _ ih => simpa using EditSeq.ins d ih

theorem EditSeq.rev {a b : List Char} {n : ℕ} (h : EditSeq a b n) :
    EditSeq a.reverse b.reverse n := by
  induction h with
  | nil => exact .nil
  | copy c _ ih => simpa using ih.snoc_copy c
  | subst c d _ ih => simpa using ih.snoc_subst c d
  | del c _ ih => simpa using ih.snoc_del c
  | ins d _ ih => simpa using ih.snoc_ins d

theorem lev_rev (a b : List Char) : lev a.reverse b.reverse = lev a b := by
  refine le_antisymm ((lev_editSeq a b).rev.lev_le) ?_
  have := (lev_editSeq a.reverse b.reverse).rev.lev_le
  simpa using this

theorem lev_comm (a b : List Char) : lev a b = lev b a :=
  le_antisymm (lev_editSeq b a).swap.lev_le (lev_editSeq a b).swap.lev_le

theorem editSeq_self (a : List Char) : EditSeq a a 0 := by
  induction a with
  | nil => exact .nil
  | cons x xs ih => exact .copy x ih

theorem lev_self (a : List Char) : lev a a = 0 :=
  Nat.le_zero.mp (editSeq_self a).lev_le

theorem eq_of_editSeq_zero {a b : List Char} {n : ℕ} (h : EditSeq a b n) (h0 : n = 0) :
    a = b := by
  induction h with
  | nil => rfl
  | copy c _ ih => rw [ih h0]
  | subst c d _ _ => exact absurd h0 (Nat.succ_ne_zero _)
  | del c _ _ => exact absurd h0 (Nat.succ_ne_zero _)
  | ins d _ _ => exact absurd h0 (Nat.succ_ne_zero _)

theorem lev_eq_zero_iff (a b : List Char) : lev a b = 0 ↔ a = b :=
  ⟨fun h => eq_of_editSeq_zero (lev_editSeq a b) h, fun h => h ▸ lev_self a⟩

theorem editSeq_trans {a b c : List Char} {m n : ℕ}
    (d1 : EditSeq a b m) (d2 : EditSeq b c n) : ∃ k, EditSeq a c k ∧ k ≤ m + n := by
  have H : ∀ N (a b c : List Char) (m n : ℕ), a.length + b.length + c.length ≤ N →
      EditSeq a b m → EditSeq b c n → ∃ k, EditSeq a c k ∧ k ≤ m + n := by
    intro N
    induction N using Nat.strong_induction_on with
    | _ N IH =>
      intro a b c m n hlen d1 d2
      cases d1 with
      | nil => exact ⟨n, d2, by omega⟩
      | @copy x xs ys _ d1' =>
        simp only [List.length_cons] at hlen
        cases d2 with
        | @copy _ _ cs _ d2' =>
          simp only [List.length_cons] at hlen
          obtain ⟨k, dk, hk⟩ := IH (xs.length + ys.length + cs.length) (by omega)
            xs ys cs m n le_rfl d1' d2'
          exact ⟨k, .copy x dk, by omega⟩
        | @subst _ e _ cs n' d2' =>
          simp only [List.length_cons] at hlen
          obtain ⟨k, dk, hk⟩ := IH (xs.length + ys.length + cs.length) (by omega)
            xs ys cs m n' le_rfl d1' d2'
          exact ⟨k + 1, .subst x e dk, by omega⟩
        | @del _ _ _ n' d2' =>
          obtain ⟨k, dk, hk⟩ := IH (xs.length + ys.length + c.length) (by omega)
            xs ys c m n' le_rfl d1' d2'
          exact ⟨k + 1, .del x dk, by omega⟩
        | @ins e _ cs n' d2' =>
          simp only [List.length_cons] at hlen
          obtain ⟨k, dk, hk⟩ := IH ((x :: xs).length + (x :: ys).length + cs.length)
            (by simp only [List.length_cons]; omega)
            (x :: xs) (x :: ys) cs m n' le_rfl (.copy x d1') d2'
          exact ⟨k + 1, .ins e dk, by omega⟩
      | @subst x y xs ys m' d1' =>
        simp only [List.length_cons] at hlen
        cases d2 with
        | @copy _ _ cs _ d2' =>
          simp only [List.length_cons] at hlen
          obtain ⟨k, dk, hk⟩ := IH (xs.length + ys.length + cs.length) (by omega)
            xs ys cs m' n le_rfl d1' d2'
          exact ⟨k + 1, .subst x y dk, by omega⟩
        | @subst _ e _ cs n' d2' =>
          simp only [List.length_cons] at hlen
          obtain ⟨k, dk, hk⟩ := IH (xs.length + ys.length + cs.length) (by omega)
            xs ys cs m' n' le_rfl d1' d2'
          exact ⟨k + 1, .subst x e dk, by omega⟩
        | @del _ _ _ n' d2' =>
          obtain ⟨k, dk, hk⟩ := IH (xs.length + ys.length + c.length) (by omega)
            xs ys c m' n' le_rfl d1' d2'
          exact ⟨k + 1, .del x dk, by omega⟩
        | @ins e _ cs n' d2' =>
          simp only [List.length_cons] at hlen
          obtain ⟨k, dk, hk⟩ := IH ((x :: xs).length + (y :: ys).length + cs.length)
            (by simp only [List.length_cons]; omega)
            (x :: xs) (y :: ys) cs (m' + 1) n' le_rfl (.subst x y d1') d2'
          exact ⟨k + 1, .ins e dk, by omega⟩
      | @del x xs _ m' d1' =>
        simp only [List.length_cons] at hlen
        obtain ⟨k, dk, hk⟩ := IH (xs.length + b.length + c.length) (by omega)
          xs b c m' n le_rfl d1' d2
        exact ⟨k + 1, .del x dk, by omega⟩
      | @ins y _ ys m' d1' =>
        simp only [List.length_cons] at hlen
        cases d2 with
        | @copy _ _ cs _ d2' =>
          simp only [List.length_cons] at hlen
          obtain ⟨k, dk, hk⟩ := IH (a.length + ys.length + cs.length) (by omega)
            a ys cs m' n le_rfl d1' d2'
          exact ⟨k + 1, .ins y dk, by omega⟩
        | @subst _ e _ cs n' d2' =>
          simp only [List.length_cons] at hlen
          obtain ⟨k, dk, hk⟩ := IH (a.length + ys.length + cs.length) (by omega)
            a ys cs m' n' le_rfl d1' d2'
          exact ⟨k + 1, .ins e dk, by omega⟩
        | @del _ _ _ n' d2' =>
          obtain ⟨k, dk, hk⟩ := IH (a.length + ys.length + c.length) (by omega)
            a ys c m' n' le_rfl d1' d2'
          exact ⟨k, dk, by omega⟩
        | @ins e _ cs n' d2' =>
          simp only [List.length_cons] at hlen
          obtain ⟨k, dk, hk⟩ := IH (a.length + (y :: ys).length + cs.length)
            (by simp only [List.length_cons]; omega)
            a (y :: ys) cs (m' + 1) n' le_rfl (.ins y d1') d2'
          exact ⟨k + 1, .ins e dk, by omega⟩
  exact H (a.length + b.length + c.length) a b c m n le_rfl d1 d2

theorem lev_triangle (a b c : List Char) : lev a c ≤ lev a b + lev b c := by
  obtain ⟨k, dk, hk⟩ := editSeq_trans (lev_editSeq a b) (lev_editSeq b c)
  exact le_trans dk.lev_le hk

/-! ### The rolling-row dynamic program computes `lev` -/

theorem levB_nil_left (b : List Char) : levB [] b = b.length := by
  simp [levB, lev_nil]

theorem levB_nil_right (a : List Char) : levB a [] = a.length := by
  simp [levB, lev_nil_right]

theorem levB_snoc_snoc (u v : List Char) (x y : Char) :
    levB (u ++ [x]) (v ++ [y]) =
      min (levB u (v ++ [y]) + 1)
        (min (levB (u ++ [x]) v + 1) (levB u v + (if x = y then 0 else 1))) := by
  simp only [levB, List.reverse_append, List.reverse_singleton, List.singleton_append]
  exact lev_cons_cons x y u.reverse v.reverse

theorem rowVals_cons (A done : List Char) (c : Char) (cs : List Char) :
    rowVals A done (c :: cs) = levB A done :: rowVals A (done ++ [c]) cs := rfl

theorem levInner_spec (c1 : Char) (A : List Char) :
    ∀ (todo done : List Char),
      levInner c1 (zipPrev todo (rowVals A done todo)) (levB (A ++ [c1]) done) =
        rowTail (A ++ [c1]) done todo := by
  intro todo
  induction todo with
  | nil => intro done; simp [zipPrev, rowVals, rowTail, levInner]
  | cons c2 cs ih =>
    intro done
    rw [rowVals_cons]
    cases cs with
    | nil =>
      simp only [rowVals, rowTail, zipPrev, List.tail_cons, List.zip_cons_cons,
        List.zip_nil_right, List.zip_nil_left, levInner]
      rw [← levB_snoc_snoc]
    | cons c3 cs' =>
      rw [rowVals_cons]
      simp only [zipPrev, List.tail_cons, List.zip_cons_cons, levInner]
      rw [← levB_snoc_snoc]
      show _ :: levInner c1 (zipPrev (c3 :: cs')
          (levB A (done ++ [c2]) :: rowVals A (done ++ [c2] ++ [c3]) cs'))
          (levB (A ++ [c1]) (done ++ [c2])) = rowTail (A ++ [c1]) done (c2 :: c3 :: cs')
      rw [← rowVals_cons]
      rw [ih (done ++ [c2])]
      rfl

theorem rowTail_of_nil_A : ∀ (todo done : List Char),
    rowTail [] done todo = List.range' (done.length + 1) todo.length := by
  intro todo
  induction todo with
  | nil => intro done; rfl
  | cons c cs ih =>
    intro done
    show levB [] (done ++ [c]) :: rowTail [] (done ++ [c]) cs = _
    rw [levB_nil_left, ih (done ++ [c])]
    simp [List.range'_succ _ _ 1, List.length_append]

theorem range_eq_rowVals (s2 : List Char) :
    List.range (s2.length + 1) = rowVals [] [] s2 := by
  rw [List.range_eq_range', List.range'_succ _ _ 1]
  show 0 :: List.range' (0 + 1) s2.length = levB [] [] :: rowTail [] [] s2
  rw [rowTail_of_nil_A s2 [], levB_nil_left]
  rfl

theorem levRows_fold (s2 : List Char) : ∀ (rest A : List Char),
    (List.enumFrom A.length rest).foldl (fun prev ic => levRow ic.2 s2 prev ic.1)
        (rowVals A [] s2) =
      rowVals (A ++ rest) [] s2 := by
  intro rest
  induction rest with
  | nil => intro A; simp [List.enumFrom]
  | cons c rest' ih =>
    intro A
    show (List.enumFrom A.length (c :: rest')).foldl _ _ = _
    rw [show List.enumFrom A.length (c :: rest') =
        (A.length, c) :: List.enumFrom (A.length + 1) rest' from rfl]
    rw [List.foldl_cons]
    have hrow : levRow c s2 (rowVals A [] s2) A.length = rowVals (A ++ [c]) [] s2 := by
      show (A.length + 1) :: levInner c (zipPrev s2 (rowVals A [] s2)) (A.length + 1) =
        rowVals (A ++ [c]) [] s2
      have hB : levB (A ++ [c]) [] = A.length + 1 := by
        rw [levB_nil_right]; simp
      rw [← hB, levInner_spec c A s2 []]
      rfl
    rw [hrow]
    have := ih (A ++ [c])
    simp only [List.length_append, List.length_singleton] at this
    rw [this]
    simp

theorem levRows_eq (s1 s2 : List Char) : levRows s1 s2 = rowVals s1 [] s2 := by
  unfold levRows
  rw [range_eq_rowVals s2]
  have := levRows_fold s2 s1 []
  simpa using this

theorem getLastD_rowVals : ∀ (todo A done : List Char) (d : ℕ),
    (rowVals A done todo).getLastD d = levB A (done ++ todo) := by
  intro todo
  induction todo with
  | nil => intro A done d; simp [rowVals, rowTail]
  | cons c cs ih =>
    intro A done d
    rw [rowVals_cons, List.getLastD_cons, ih]
    simp

theorem levCore_eq (s1 s2 : List Char) : levCore s1 s2 = lev s1 s2 := by
  unfold levCore
  split
  · next h =>
    have : s2 = [] := List.length_eq_zero.mp h
    subst this
    rw [lev_nil_right]
  · rw [levRows_eq, getLastD_rowVals]
    show levB s1 s2 = lev s1 s2
    rw [levB, lev_rev]

theorem levenshtein_eq_lev (s1 s2 : List Char) :
    levenshtein_distance s1 s2 = lev s1 s2 := by
  unfold levenshtein_distance
  split
  · rw [levCore_eq, lev_comm]
  · rw [levCore_eq]

/-! ### Bounds on the scoring components -/

theorem ngram_similarity_nonneg (s1 s2 : List Char) (n : ℕ) :
    0 ≤ ngram_similarity s1 s2 n := by
  unfold ngram_similarity
  split
  · exact le_refl 0
  · split
    · exact le_refl 0
    · split
      · positivity
      · exact le_refl 0

theorem ngram_similarity_le_one (s1 s2 : List Char) (n : ℕ) :
    ngram_similarity s1 s2 n ≤ 1 := by
  unfold ngram_similarity
  split
  · exact zero_le_one
  · split
    · exact zero_le_one
    · split
      · next hu =>
        rw [div_le_one (by exact_mod_cast hu)]
        exact_mod_cast Finset.card_le_card (Finset.inter_subset_union)
      · exact zero_le_one

theorem ngrams_nonempty (s : List Char) (n : ℕ) (_h : n ≤ s.length) :
    ngrams s n ≠ ∅ := by
  unfold ngrams
  intro hc
  rw [← Finset.not_nonempty_iff_eq_empty] at hc
  apply hc
  refine ⟨(s.drop 0).take n, ?_⟩
  rw [List.mem_toFinset]
  exact List.mem_map_of_mem _ (List.mem_range.mpr (by omega))

theorem ngram_similarity_self (s : List Char) (n : ℕ) (h : n ≤ s.length) :
    ngram_similarity s s n = 1 := by
  unfold ngram_similarity
  rw [if_neg (by omega)]
  have hne := ngrams_nonempty s n h
  rw [if_neg (by tauto)]
  have hcard : 0 < (ngrams s n ∪ ngrams s n).card := by
    rw [Finset.union_self]
    exact Finset.card_pos.mpr (Finset.nonempty_iff_ne_empty.mpr hne)
  rw [if_pos hcard, Finset.inter_self, Finset.union_self, div_self]
  have : (ngrams s n).card ≠ 0 := by
    rw [Finset.union_self] at hcard
    omega
  exact_mod_cast this

theorem freqBoost_nonneg (f : ℕ) : 0 ≤ freqBoost f := by
  unfold freqBoost
  split
  · refine le_min (by norm_num) ?_
    have : (0 : ℝ) ≤ Real.logb 10 (max 1 (f : ℝ)) :=
      Real.logb_nonneg (by norm_num) (le_max_left 1 _)
    linarith
  · exact le_refl 0

theorem freqBoost_le_ten (f : ℕ) : freqBoost f ≤ 10 := by
  unfold freqBoost
  split
  · exact min_le_left _ _
  · norm_num

theorem freqBoost_pow20 : freqBoost (10 ^ 20) = 10 := by
  unfold freqBoost
  rw [if_pos (by positivity)]
  have h1 : ((10 ^ 20 : ℕ) : ℝ) = (10 : ℝ) ^ (20 : ℕ) := by push_cast; ring
  have h2 : max 1 ((10 ^ 20 : ℕ) : ℝ) = (10 : ℝ) ^ (20 : ℕ) := by
    rw [h1]; exact max_eq_right (by norm_num)
  rw [h2, Real.logb_pow, Real.logb_self_eq_one (by norm_num)]
  norm_num

/-! ### Facts about `scoreEntry` and the ranking pipeline -/

theorem cast_lev_nonneg (a b : List Char) : (0 : ℝ) ≤ (levenshtein_distance a b : ℝ) := by
  exact_mod_cast Nat.zero_le _

theorem scoreEntry_score_le (i sx : List Char) (e : WordEntry) :
    (scoreEntry i sx e).score ≤ 140 := by
  have h2 : (ngram_similarity i e.romanized 2 : ℝ) ≤ 1 := by
    exact_mod_cast ngram_similarity_le_one i e.romanized 2
  have h2' : (0 : ℝ) ≤ (ngram_similarity i e.romanized 2 : ℝ) := by
    exact_mod_cast ngram_similarity_nonneg i e.romanized 2
  have h3 : (ngram_similarity i e.romanized 3 : ℝ) ≤ 1 := by
    exact_mod_cast ngram_similarity_le_one i e.romanized 3
  have h3' : (0 : ℝ) ≤ (ngram_similarity i e.romanized 3 : ℝ) := by
    exact_mod_cast ngram_similarity_nonneg i e.romanized 3
  have hf := freqBoost_le_ten e.frequency
  have hd := cast_lev_nonneg i e.romanized
  simp only [scoreEntry]
  split
  · split <;> (dsimp only; nlinarith)
  · split
    · have hm : max (0 : ℝ) (90 - 10 * (levenshtein_distance i e.romanized : ℝ)) ≤ 90 :=
        max_le (by norm_num) (by nlinarith)
      split <;> (dsimp only; nlinarith)
    · have hm : max (0 : ℝ) (70 - 10 * (levenshtein_distance i e.romanized : ℝ)) ≤ 70 :=
        max_le (by norm_num) (by nlinarith)
      split <;> (dsimp only; nlinarith)

theorem scoreEntry_ne_compound (i sx : List Char) (e : WordEntry) :
    (scoreEntry i sx e).match_type ≠ "compound" := by
  simp only [scoreEntry]
  split
  · dsimp only; decide
  · split
    · dsimp only; decide
    · dsimp only; decide

theorem scoreEntry_exact_romanized {i sx : List Char} {e : WordEntry}
    (h : (scoreEntry i sx e).match_type = "exact") : e.romanized = i := by
  by_cases h1 : e.romanized = i
  · exact h1
  · exfalso
    simp only [scoreEntry, if_neg h1] at h
    split at h
    · dsimp only at h; exact absurd h (by decide)
    · dsimp only at h; exact absurd h (by decide)

theorem scoreEntry_exact_score {i : List Char} (sx : List Char) {e : WordEntry}
    (hrom : e.romanized = i) (hlen : 3 ≤ i.length) : 130 ≤ (scoreEntry i sx e).score := by
  have h2 : ngram_similarity i e.romanized 2 = 1 := by
    rw [hrom]; exact ngram_similarity_self i 2 (by omega)
  have h3 : ngram_similarity i e.romanized 3 = 1 := by
    rw [hrom]; exact ngram_similarity_self i 3 hlen
  have hpre : (i.take 3).isPrefixOf e.romanized := by
    rw [hrom]
    exact List.isPrefixOf_iff_prefix.mpr (List.take_prefix 3 i)
  have hf := freqBoost_nonneg e.frequency
  simp only [scoreEntry, if_pos hrom, if_pos (Or.inl hpre), h2, h3]
  norm_num
  linarith

theorem mem_of_head?_eq_some {α : Type} {l : List α} {a : α} (h : l.head? = some a) :
    a ∈ l := by
  cases l with
  | nil => simp at h
  | cons x xs =>
    simp only [List.head?_cons, Option.some.injEq] at h
    rw [← h]
    exact List.mem_cons_self x xs

theorem mem_find_matches_db {inp : List Char} {db : List WordEntry} {tn : ℕ}
    {m : ScoredMatch} (h : m ∈ find_matches_db inp db tn) :
    normalizeInput inp ≠ [] ∧ 0 < m.score ∧
      ∃ e, m = scoreEntry (normalizeInput inp) (thai_soundex (normalizeInput inp)) e := by
  classical
  simp only [find_matches_db] at h
  split at h
  · simp at h
  · next hne =>
    refine ⟨hne, ?_, ?_⟩
    · have h1 := List.mem_of_mem_take h
      rw [mem_sortOrd] at h1
      have h2 := (List.mem_filter.mp h1).2
      exact of_decide_eq_true h2
    · have h1 := List.mem_of_mem_take h
      rw [mem_sortOrd] at h1
      have h2 := (List.mem_filter.mp h1).1
      obtain ⟨e, _, heq⟩ := List.mem_map.mp h2
      exact ⟨e, heq.symm⟩

theorem fmdb_score_le_140 {inp : List Char} {db : List WordEntry} {tn : ℕ}
    {m : ScoredMatch} (h : m ∈ find_matches_db inp db tn) : m.score ≤ 140 := by
  obtain ⟨-, -, e, he⟩ := mem_find_matches_db h
  rw [he]
  exact scoreEntry_score_le _ _ e

theorem fmdb_ne_compound {inp : List Char} {db : List WordEntry} {tn : ℕ}
    {m : ScoredMatch} (h : m ∈ find_matches_db inp db tn) : m.match_type ≠ "compound" := by
  obtain ⟨-, -, e, he⟩ := mem_find_matches_db h
  rw [he]
  exact scoreEntry_ne_compound _ _ e

theorem fmdb_exact_score {inp : List Char} {db : List WordEntry} {tn : ℕ}
    {m : ScoredMatch} (h : m ∈ find_matches_db inp db tn)
    (hmt : m.match_type = "exact") (hlen : 3 ≤ (normalizeInput inp).length) :
    130 ≤ m.score := by
  obtain ⟨-, -, e, he⟩ := mem_find_matches_db h
  rw [he] at hmt ⊢
  exact scoreEntry_exact_score _ (scoreEntry_exact_romanized hmt) hlen

theorem compound_fold_prop (db : List WordEntry) (norm : List Char) :
    ∀ (idxs : List ℕ) (acc : List ScoredMatch × List (List Char)),
      (∀ m ∈ acc.1, m.match_type = "compound" ∧ 20 ≤ m.score ∧ m.score ≤ 110) →
      ∀ m ∈ (idxs.foldl (compoundStep db norm) acc).1,
        m.match_type = "compound" ∧ 20 ≤ m.score ∧ m.score ≤ 110 := by
  intro idxs
  induction idxs with
  | nil => intro acc hacc m hm; exact hacc m hm
  | cons i idxs' ih =>
    intro acc hacc m hm
    rw [List.foldl_cons] at hm
    refine ih _ ?_ m hm
    intro m' hm'
    simp only [compoundStep] at hm'
    split at hm'
    · next lm lrest rm rrest hL hR =>
      split at hm'
      · next hge =>
        split at hm'
        · exact hacc m' hm'
        · rcases List.mem_append.mp hm' with hin | hin
          · exact hacc m' hin
          · have hlm : lm ∈ find_matches_db (norm.take i) db 1 := by
              rw [hL]; exact List.mem_cons_self _ _
            have hrm : rm ∈ find_matches_db (norm.drop i) db 1 := by
              rw [hR]; exact List.mem_cons_self _ _
            have hlub := fmdb_score_le_140 hlm
            have hrub := fmdb_score_le_140 hrm
            simp only [List.mem_singleton] at hin
            subst hin
            refine ⟨rfl, ?_, ?_⟩
            · dsimp only
              linarith [hge.1, hge.2]
            · dsimp only
              linarith
      · exact hacc m' hm'
    · exact hacc m' hm'

theorem mem_find_compound_matches_db {inp : List Char} {db : List WordEntry} {tn : ℕ}
    {m : ScoredMatch} (h : m ∈ find_compound_matches_db inp db tn) :
    4 ≤ (normalizeInput inp).length ∧
      m.match_type = "compound" ∧ 20 ≤ m.score ∧ m.score ≤ 110 := by
  classical
  simp only [find_compound_matches_db] at h
  split at h
  · simp at h
  · next hlen =>
    refine ⟨by omega, ?_⟩
    have h1 := List.mem_of_mem_take h
    rw [mem_sortOrd] at h1
    exact compound_fold_prop db (normalizeInput inp) _ ([], []) (by simp) m h1

theorem mem_find_matches_split {inp : List Char} {db : List WordEntry} {tn : ℕ}
    {m : ScoredMatch} (h : m ∈ find_matches inp db tn) :
    m ∈ find_matches_db inp db tn ∨ m ∈ find_compound_matches_db inp db tn := by
  classical
  simp only [find_matches] at h
  have h1 := List.mem_of_mem_take h
  rw [mem_sortOrd] at h1
  exact List.mem_append.mp h1

/-- C1: in the merged output of `find_matches`, a compound match always has a
strictly lower score than an exact single-word match: compound matches only
exist for normalized inputs of length at least 4, where every exact match
scores at least 130, while every compound match scores at most 110. -/
theorem compound_never_outranks_exact (db : List WordEntry) (inp : List Char) (tn : ℕ)
    (m m' : ScoredMatch) (hm : m ∈ find_matches inp db tn)
    (hm' : m' ∈ find_matches inp db tn) (hc : m.match_type = "compound")
    (he : m'.match_type = "exact") : m.score < m'.score := by
  rcases mem_find_matches_split hm with h1 | h1
  · exact absurd hc (fmdb_ne_compound h1)
  · obtain ⟨hlen, -, -, hub⟩ := mem_find_compound_matches_db h1
    rcases mem_find_matches_split hm' with h2 | h2
    · have h130 := fmdb_exact_score h2 he (by omega)
      linarith
    · obtain ⟨-, hc', -, -⟩ := mem_find_compound_matches_db h2
      rw [hc'] at he
      exact absurd he (by decide)

/-- C10: every match returned by the compound decomposer has a score between
20 and 110: both halves' best matches score in `[50, 140]`, and the combined
score is their average minus the fixed penalty 30. -/
theorem compound_score_bounds (db : List WordEntry) (inp : List Char) (tn : ℕ)
    (m : ScoredMatch) (h : m ∈ find_compound_matches_db inp db tn) :
    20 ≤ m.score ∧ m.score ≤ 110 :=
  ⟨(mem_find_compound_matches_db h).2.2.1, (mem_find_compound_matches_db h).2.2.2⟩

theorem scoreEntry_partial_inv {i sx : List Char} {e : WordEntry}
    (h : (scoreEntry i sx e).match_type = "soundex_partial") :
    e.romanized ≠ i ∧ e.soundex ≠ sx := by
  by_cases h1 : e.romanized = i
  · exfalso
    simp only [scoreEntry, if_pos h1] at h
    exact absurd h (by decide)
  · by_cases h2 : e.soundex = sx
    · exfalso
      simp only [scoreEntry, if_neg h1, if_pos h2] at h
      exact absurd h (by decide)
    · exact ⟨h1, h2⟩

theorem scoreEntry_sxexact_inv {i sx : List Char} {e : WordEntry}
    (h : (scoreEntry i sx e).match_type = "soundex_exact") :
    e.romanized ≠ i ∧ e.soundex = sx := by
  by_cases h1 : e.romanized = i
  · exfalso
    simp only [scoreEntry, if_pos h1] at h
    exact absurd h (by decide)
  · by_cases h2 : e.soundex = sx
    · exact ⟨h1, h2⟩
    · exfalso
      simp only [scoreEntry, if_neg h1, if_neg h2] at h
      exact absurd h (by decide)

/-- C2 (amended): at the same edit distance, a `soundex_partial` candidate's
base score never exceeds a `soundex_exact` candidate's base score, and its
final score exceeds the `soundex_exact` candidate's final score by at most
40 (the sum of the boost caps 25 + 5 + 10); the boosts CAN however make it
surpass the `soundex_exact` candidate, see the counterexample. -/
theorem partial_vs_soundex_exact_bound (i sx : List Char) (e1 e2 : WordEntry)
    (hd : levenshtein_distance i e1.romanized = levenshtein_distance i e2.romanized)
    (h1 : (scoreEntry i sx e1).match_type = "soundex_partial")
    (h2 : (scoreEntry i sx e2).match_type = "soundex_exact") :
    max 0 (70 - 10 * (levenshtein_distance i e1.romanized : ℝ)) ≤
        max 0 (90 - 10 * (levenshtein_distance i e2.romanized : ℝ)) ∧
      (scoreEntry i sx e1).score ≤ (scoreEntry i sx e2).score + 40 := by
  obtain ⟨hr1, hs1⟩ := scoreEntry_partial_inv h1
  obtain ⟨hr2, hs2⟩ := scoreEntry_sxexact_inv h2
  have hbase : max (0 : ℝ) (70 - 10 * (levenshtein_distance i e1.romanized : ℝ)) ≤
      max 0 (90 - 10 * (levenshtein_distance i e2.romanized : ℝ)) := by
    rw [hd]
    exact max_le_max le_rfl (by linarith)
  refine ⟨hbase, ?_⟩
  have b2 : (ngram_similarity i e1.romanized 2 : ℝ) ≤ 1 := by
    exact_mod_cast ngram_similarity_le_one i e1.romanized 2
  have b3 : (ngram_similarity i e1.romanized 3 : ℝ) ≤ 1 := by
    exact_mod_cast ngram_similarity_le_one i e1.romanized 3
  have c2 : (0 : ℝ) ≤ (ngram_similarity i e2.romanized 2 : ℝ) := by
    exact_mod_cast ngram_similarity_nonneg i e2.romanized 2
  have c3 : (0 : ℝ) ≤ (ngram_similarity i e2.romanized 3 : ℝ) := by
    exact_mod_cast ngram_similarity_nonneg i e2.romanized 3
  have f1 := freqBoost_le_ten e1.frequency
  have f2 := freqBoost_nonneg e2.frequency
  simp only [scoreEntry, if_neg hr1, if_neg hs1, if_neg hr2, if_pos hs2]
  split <;> split <;> linarith

/-! ### Concrete evaluations used by the witnesses -/

theorem freqBoost_zero : freqBoost 0 = 0 := by simp [freqBoost]

theorem ngram_similarity_eval (s1 s2 : List Char) (n i u : ℕ)
    (hlen : ¬(s1.length < n ∨ s2.length < n))
    (hne : ¬(ngrams s1 n = ∅ ∨ ngrams s2 n = ∅))
    (hi : (ngrams s1 n ∩ ngrams s2 n).card = i)
    (hu : (ngrams s1 n ∪ ngrams s2 n).card = u) (hupos : 0 < u) :
    ngram_similarity s1 s2 n = (i : ℚ) / (u : ℚ) := by
  unfold ngram_similarity
  rw [if_neg hlen, if_neg hne, hi, hu, if_pos hupos]

theorem ngram_short (s1 s2 : List Char) (n : ℕ) (h : s1.length < n ∨ s2.length < n) :
    ngram_similarity s1 s2 n = 0 := by
  unfold ngram_similarity
  rw [if_pos h]

theorem kaM_score : kaM.score = 120 := by
  have h2 : ngram_similarity (chars "ka") kaEntry.romanized 2 = (1 : ℚ) / 1 :=
    ngram_similarity_eval _ _ 2 1 1 (by decide) (by decide) (by decide) (by decide)
      (by decide)
  have h3 : ngram_similarity (chars "ka") kaEntry.romanized 3 = 0 :=
    ngram_short _ _ 3 (by decide)
  have hpre : (List.take 3 (chars "ka")).isPrefixOf kaEntry.romanized = true := by decide
  simp only [kaM, scoreEntry, if_pos (show kaEntry.romanized = chars "ka" by decide),
    if_pos (Or.inl hpre), h2, h3, show kaEntry.frequency = 0 from rfl, freqBoost_zero]
  push_cast
  norm_num

theorem kaM_mt : kaM.match_type = "exact" := by
  simp only [kaM, scoreEntry, if_pos (show kaEntry.romanized = chars "ka" by decide)]

theorem kakaM_score : kakaM.score = 130 := by
  have h2 : ngram_similarity (chars "kaka") kakaEntry.romanized 2 = (2 : ℚ) / 2 :=
    ngram_similarity_eval _ _ 2 2 2 (by decide) (by decide) (by decide) (by decide)
      (by decide)
  have h3 : ngram_similarity (chars "kaka") kakaEntry.romanized 3 = (2 : ℚ) / 2 :=
    ngram_similarity_eval _ _ 3 2 2 (by decide) (by decide) (by decide) (by decide)
      (by decide)
  have hpre : (List.take 3 (chars "kaka")).isPrefixOf kakaEntry.romanized = true := by decide
  simp only [kakaM, scoreEntry, if_pos (show kakaEntry.romanized = chars "kaka" by decide),
    if_pos (Or.inl hpre), h2, h3, show kakaEntry.frequency = 0 from rfl, freqBoost_zero]
  push_cast
  norm_num

theorem kakaM_mt : kakaM.match_type = "exact" := by
  simp only [kakaM, scoreEntry, if_pos (show kakaEntry.romanized = chars "kaka" by decide)]

theorem kaKakaM_score : kaKakaM.score = 125 / 2 := by
  have h2 : ngram_similarity (chars "ka") kakaEntry.romanized 2 = (1 : ℚ) / 2 :=
    ngram_similarity_eval _ _ 2 1 2 (by decide) (by decide) (by decide) (by decide)
      (by decide)
  have h3 : ngram_similarity (chars "ka") kakaEntry.romanized 3 = 0 :=
    ngram_short _ _ 3 (by decide)
  have hpre : (List.take 3 (chars "ka")).isPrefixOf kakaEntry.romanized = true := by decide
  have hd : levenshtein_distance (chars "ka") kakaEntry.romanized = 2 := by decide
  simp only [kaKakaM, scoreEntry,
    if_neg (show ¬(kakaEntry.romanized = chars "ka") by decide),
    if_neg (show ¬(kakaEntry.soundex = chars "1A") by decide),
    if_pos (Or.inl hpre), h2, h3, hd, show kakaEntry.frequency = 0 from rfl, freqBoost_zero]
  push_cast
  norm_num

theorem compoundM_score : compoundM.score = 90 := by
  simp only [compoundM, kaM_score]
  norm_num

theorem kab_score : (scoreEntry (chars "ka") (chars "1A") kabEntry).score = 165 / 2 := by
  have h2 : ngram_similarity (chars "ka") kabEntry.romanized 2 = (1 : ℚ) / 2 :=
    ngram_similarity_eval _ _ 2 1 2 (by decide) (by decide) (by decide) (by decide)
      (by decide)
  have h3 : ngram_similarity (chars "ka") kabEntry.romanized 3 = 0 :=
    ngram_short _ _ 3 (by decide)
  have hpre : (List.take 3 (chars "ka")).isPrefixOf kabEntry.romanized = true := by decide
  have hd : levenshtein_distance (chars "ka") kabEntry.romanized = 1 := by decide
  simp only [scoreEntry, if_neg (show ¬(kabEntry.romanized = chars "ka") by decide),
    if_neg (show ¬(kabEntry.soundex = chars "1A") by decide),
    if_pos (Or.inl hpre), h2, h3, hd,
    show kabEntry.frequency = 10 ^ 20 from rfl, freqBoost_pow20]
  push_cast
  norm_num

theorem kab_mt : (scoreEntry (chars "ka") (chars "1A") kabEntry).match_type =
    "soundex_partial" := by
  simp only [scoreEntry, if_neg (show ¬(kabEntry.romanized = chars "ka") by decide),
    if_neg (show ¬(kabEntry.soundex = chars "1A") by decide)]

theorem ca_score : (scoreEntry (chars "ka") (chars "1A") caEntry).score = 80 := by
  have h2 : ngram_similarity (chars "ka") caEntry.romanized 2 = (0 : ℚ) / 2 :=
    ngram_similarity_eval _ _ 2 0 2 (by decide) (by decide) (by decide) (by decide)
      (by decide)
  have h3 : ngram_similarity (chars "ka") caEntry.romanized 3 = 0 :=
    ngram_short _ _ 3 (by decide)
  have hpre : ¬((List.take 3 (chars "ka")).isPrefixOf caEntry.romanized = true ∨
      (List.take 3 caEntry.romanized).isPrefixOf (chars "ka") = true) := by decide
  have hd : levenshtein_distance (chars "ka") caEntry.romanized = 1 := by decide
  simp only [scoreEntry, if_neg (show ¬(caEntry.romanized = chars "ka") by decide),
    if_pos (show caEntry.soundex = chars "1A" by decide), if_neg hpre, h2, h3, hd,
    show caEntry.frequency = 0 from rfl, freqBoost_zero]
  push_cast
  norm_num

theorem ca_mt : (scoreEntry (chars "ka") (chars "1A") caEntry).match_type =
    "soundex_exact" := by
  simp only [scoreEntry, if_neg (show ¬(caEntry.romanized = chars "ka") by decide),
    if_pos (show caEntry.soundex = chars "1A" by decide)]

/-- C2 counterexample: on input `"ka"` (soundex `"1A"`), the candidate
`"kab"` (soundex `"1A2"`, frequency `10^20`) is scored `soundex_partial` and
the candidate `"ca"` (soundex `"1A"`, frequency 0) is scored
`soundex_exact`; both are at edit distance 1 from the input, yet the
prefix-only candidate's final score 82.5 exceeds the phonetic-exact
candidate's final score 80. -/
theorem partial_outranks_soundex_exact_cex :
    thai_soundex (chars "ka") = chars "1A" ∧
      levenshtein_distance (chars "ka") kabEntry.romanized =
        levenshtein_distance (chars "ka") caEntry.romanized ∧
      (scoreEntry (chars "ka") (chars "1A") kabEntry).match_type = "soundex_partial" ∧
      (scoreEntry (chars "ka") (chars "1A") caEntry).match_type = "soundex_exact" ∧
      (scoreEntry (chars "ka") (chars "1A") caEntry).score <
        (scoreEntry (chars "ka") (chars "1A") kabEntry).score := by
  refine ⟨by decide, by decide, kab_mt, ca_mt, ?_⟩
  rw [kab_score, ca_score]
  norm_num

open scoped Classical in
theorem find_matches_db_eval (inp : List Char) (db : List WordEntry) (tn : ℕ)
    (norm sx pref : List Char) (hn : normalizeInput inp = norm) (hne : ¬(norm = []))
    (hsx : thai_soundex norm = sx)
    (hpref : (if 3 ≤ sx.length then sx.take 3 else sx) = pref) :
    find_matches_db inp db tn =
      (sortOrd scoreBefore
          (((queryCandidates db norm sx pref).map (scoreEntry norm sx)).filter
            (fun m => 0 < m.score))).take tn := by
  simp only [find_matches_db, hn, hsx, hpref, if_neg hne]

theorem sortOrd_pair_of_not {α : Type} (r : α → α → Prop) [DecidableRel r] (a b : α)
    (h : ¬ r b a) : sortOrd r [a, b] = [a, b] := by
  simp only [sortOrd, insertOrd, if_neg h]

theorem fmdb_ka_kaDb : find_matches_db (chars "ka") kaDb 5 = [kaM] := by
  classical
  have hk : (0 : ℝ) < kaM.score := by rw [kaM_score]; norm_num
  rw [find_matches_db_eval (chars "ka") kaDb 5 (chars "ka") (chars "1A") (chars "1A")
    (by decide) (by decide) (by decide) (by decide)]
  rw [show queryCandidates kaDb (chars "ka") (chars "1A") (chars "1A") = [kaEntry]
    from by decide]
  simp only [List.map_cons, List.map_nil, List.filter_cons, List.filter_nil]
  rw [if_pos (by rw [decide_eq_true_eq]; exact hk)]
  show (sortOrd scoreBefore [kaM]).take 5 = [kaM]
  simp only [sortOrd, insertOrd, List.take_succ_cons, List.take_nil]

theorem fcmdb_ka_empty (db : List WordEntry) (tn : ℕ) :
    find_compound_matches_db (chars "ka") db tn = [] := by
  simp only [find_compound_matches_db]
  rw [if_pos (by decide)]

theorem fm_ka_kaDb : find_matches (chars "ka") kaDb 5 = [kaM] := by
  classical
  simp only [find_matches, fmdb_ka_kaDb, fcmdb_ka_empty]
  simp [sortOrd, insertOrd]

theorem fmdb_ka_demoDb : find_matches_db (chars "ka") demoDb 1 = [kaM] := by
  classical
  have hk : (0 : ℝ) < kaM.score := by rw [kaM_score]; norm_num
  have hkk : (0 : ℝ) < kaKakaM.score := by rw [kaKakaM_score]; norm_num
  rw [find_matches_db_eval (chars "ka") demoDb 1 (chars "ka") (chars "1A") (chars "1A")
    (by decide) (by decide) (by decide) (by decide)]
  rw [show queryCandidates demoDb (chars "ka") (chars "1A") (chars "1A") =
    [kaEntry, kakaEntry] from by decide]
  simp only [List.map_cons, List.map_nil, List.filter_cons, List.filter_nil]
  rw [if_pos (by rw [decide_eq_true_eq]; exact hk),
    if_pos (by rw [decide_eq_true_eq]; exact hkk)]
  show (sortOrd scoreBefore [kaM, kaKakaM]).take 1 = [kaM]
  rw [sortOrd_pair_of_not scoreBefore kaM kaKakaM
    (by rw [scoreBefore, kaM_score, kaKakaM_score]; norm_num)]
  rfl

theorem fmdb_kaka_demoDb : find_matches_db (chars "kaka") demoDb 5 = [kakaM] := by
  classical
  have hk : (0 : ℝ) < kakaM.score := by rw [kakaM_score]; norm_num
  rw [find_matches_db_eval (chars "kaka") demoDb 5 (chars "kaka") (chars "1A1A")
    (chars "1A1") (by decide) (by decide) (by decide) (by decide)]
  rw [show queryCandidates demoDb (chars "kaka") (chars "1A1A") (chars "1A1") =
    [kakaEntry] from by decide]
  simp only [List.map_cons, List.map_nil, List.filter_cons, List.filter_nil]
  rw [if_pos (by rw [decide_eq_true_eq]; exact hk)]
  show (sortOrd scoreBefore [kakaM]).take 5 = [kakaM]
  simp only [sortOrd, insertOrd, List.take_succ_cons, List.take_nil]

theorem fcmdb_kaka_demoDb :
    find_compound_matches_db (chars "kaka") demoDb 5 = [compoundM] := by
  classical
  simp only [find_compound_matches_db]
  rw [if_neg (by decide)]
  rw [show List.range' 2 ((normalizeInput (chars "kaka")).length - 3) = [2] from by decide]
  rw [List.foldl_cons, List.foldl_nil]
  simp only [compoundStep]
  rw [show (normalizeInput (chars "kaka")).take 2 = chars "ka" from by decide,
    show (normalizeInput (chars "kaka")).drop 2 = chars "ka" from by decide,
    fmdb_ka_demoDb]
  dsimp only
  rw [if_pos (show 50 ≤ kaM.score ∧ 50 ≤ kaM.score from by rw [kaM_score]; norm_num)]
  rw [if_neg (List.not_mem_nil (kaM.thai ++ kaM.thai))]
  simp only [List.nil_append]
  show (sortOrd scoreBefore [compoundM]).take 5 = [compoundM]
  simp only [sortOrd, insertOrd, List.take_succ_cons, List.take_nil]

theorem fm_kaka_demoDb :
    find_matches (chars "kaka") demoDb 5 = [kakaM, compoundM] := by
  classical
  simp only [find_matches, fmdb_kaka_demoDb, fcmdb_kaka_demoDb, List.cons_append,
    List.nil_append]
  rw [sortOrd_pair_of_not scoreBefore kakaM compoundM
    (by rw [scoreBefore, kakaM_score, compoundM_score]; norm_num)]
  rfl

/-- C4: `levenshtein_distance` is a metric on strings: symmetric, zero iff
the strings are equal, satisfies the triangle inequality, and in particular
the distance between `"narak"` and `"narok"` is 1. -/
theorem editDistance_metric :
    (∀ a b : List Char, levenshtein_distance a b = levenshtein_distance b a) ∧
    (∀ a b : List Char, levenshtein_distance a b = 0 ↔ a = b) ∧
    (∀ a b c : List Char,
      levenshtein_distance a c ≤ levenshtein_distance a b + levenshtein_distance b c) ∧
    levenshtein_distance (chars "narak") (chars "narok") = 1 := by
  refine ⟨?_, ?_, ?_, by decide⟩
  · intro a b
    rw [levenshtein_eq_lev, levenshtein_eq_lev, lev_comm]
  · intro a b
    rw [levenshtein_eq_lev]
    exact lev_eq_zero_iff a b
  · intro a b c
    simp only [levenshtein_eq_lev]
    exact lev_triangle a b c

/-- C5 counterexample: with the Python slice semantics of `final[:length]`,
a negative `maxLength` does not bound the result's length:
`thai_soundex "ab" (-1)` has length 1, and `1 ≤ -1` is false. -/
theorem thai_soundex_length_cex :
    ¬(((thai_soundex (chars "ab") (-1)).length : ℤ) ≤ -1) := by decide

/-- C5 (amended): for every string and every NONNEGATIVE integer
`maxLength k`, the phonetic code has length at most `k` (the source's
default `maxLength` is 6; a negative `k` selects a Python negative slice
and violates the bound, see the counterexample). -/
theorem thai_soundex_length_le (s : List Char) (k : ℤ) (hk : 0 ≤ k) :
    ((thai_soundex s k).length : ℤ) ≤ k := by
  simp only [thai_soundex]
  split
  · simpa using hk
  · unfold pySlice
    rw [if_pos hk]
    simp only [List.length_take]
    have h2 : min k.toNat (collapseRuns (soundexFilter
        (applyReplacements (pyStrip (pyLower s))))).length ≤ k.toNat := min_le_left _ _
    omega

theorem thai_soundex_length_le_witness :
    (0 : ℤ) ≤ 6 ∧ ((thai_soundex (chars "narak") 6).length : ℤ) ≤ 6 :=
  ⟨by norm_num, thai_soundex_length_le (chars "narak") 6 (by norm_num)⟩

theorem toLower_ws {c : Char} (h : c.isWhitespace) : c.toLower = c := by
  simp only [Char.isWhitespace, Bool.or_eq_true, decide_eq_true_eq] at h
  rcases h with ((rfl | rfl) | rfl) | rfl <;> decide

theorem normalizeInput_ws (s : List Char) (h : ∀ c ∈ s, c.isWhitespace) :
    normalizeInput s = [] := by
  unfold normalizeInput pyStrip pyLower
  have hall : (s.map Char.toLower).dropWhile Char.isWhitespace = [] := by
    rw [List.dropWhile_eq_nil_iff]
    intro c hc
    obtain ⟨a, ha, rfl⟩ := List.mem_map.mp hc
    rw [toLower_ws (h a ha)]
    exact h a ha
  rw [hall]
  rfl

/-- C6: for every input that is empty or consists only of whitespace, the
single-word ranker, the compound decomposer and the merged match function
all return the empty list (and, being total functions, raise nothing). -/
theorem whitespace_input_empty_results (s : List Char) (db : List WordEntry) (tn : ℕ)
    (h : ∀ c ∈ s, c.isWhitespace) :
    find_matches_db s db tn = [] ∧ find_compound_matches_db s db tn = [] ∧
      find_matches s db tn = [] := by
  classical
  have hn := normalizeInput_ws s h
  have h1 : find_matches_db s db tn = [] := by
    simp only [find_matches_db, hn, if_true]
  have h2 : find_compound_matches_db s db tn = [] := by
    simp only [find_compound_matches_db, hn]
    rw [if_pos (by decide : ([] : List Char).length < 4)]
  refine ⟨h1, h2, ?_⟩
  simp only [find_matches, h1, h2, List.nil_append]
  simp only [sortOrd, List.take_nil]

theorem whitespace_input_empty_results_witness :
    (∀ c ∈ chars "  ", c.isWhitespace) ∧
      find_matches_db (chars "  ") [] 5 = [] ∧
      find_compound_matches_db (chars "  ") [] 5 = [] ∧
      find_matches (chars "  ") [] 5 = [] := by
  have h : ∀ c ∈ chars "  ", c.isWhitespace := by decide
  obtain ⟨h1, h2, h3⟩ := whitespace_input_empty_results (chars "  ") [] 5 h
  exact ⟨h, h1, h2, h3⟩

/-- C7: a delete keystroke (Backspace, `\x7f` or `\x08`) removes the last
character of the buffer when the buffer is non-empty (output untouched);
with an empty buffer it removes the last character of a non-empty output
(buffer stays empty); with empty buffer and empty output it is a no-op. -/
theorem delete_key_behavior (db : List WordEntry) (st : IMEState) (ch : Char)
    (hch : ch = '\x7f' ∨ ch = '\x08') :
    (st.buffer = [] → st.output ≠ [] →
      (imeStep db st ch).buffer = [] ∧ (imeStep db st ch).output = st.output.dropLast) ∧
    (st.buffer = [] → st.output = [] → imeStep db st ch = st) ∧
    (st.buffer ≠ [] →
      (imeStep db st ch).buffer = st.buffer.dropLast ∧
        (imeStep db st ch).output = st.output) := by
  have h1 : ¬(ch = '\x03' ∨ ch = '\x1b') := by rcases hch with rfl | rfl <;> decide
  obtain ⟨buf, out⟩ := st
  refine ⟨?_, ?_, ?_⟩
  · intro hb ho
    dsimp only at hb ho ⊢
    subst hb
    simp only [imeStep, if_neg h1, if_pos hch]
    rw [if_neg (by decide : ¬(([] : List Char) ≠ [])), if_pos ho]
    exact ⟨rfl, rfl⟩
  · intro hb ho
    dsimp only at hb ho ⊢
    subst hb
    subst ho
    simp only [imeStep, if_neg h1, if_pos hch]
    rw [if_neg (by decide : ¬(([] : List Char) ≠ []))]
    rw [if_neg (by decide : ¬(([] : List Char) ≠ []))]
  · intro hb
    dsimp only at hb ⊢
    simp only [imeStep, if_neg h1, if_pos hch]
    rw [if_pos hb]
    exact ⟨rfl, rfl⟩

theorem delete_key_behavior_witness :
    ('\x7f' = '\x7f' ∨ '\x7f' = '\x08') ∧
      ((imeStep [] ⟨[], chars "AB"⟩ '\x7f').buffer = [] ∧
        (imeStep [] ⟨[], chars "AB"⟩ '\x7f').output = (chars "AB").dropLast) ∧
      imeStep [] ⟨[], []⟩ '\x7f' = ⟨[], []⟩ ∧
      ((imeStep [] ⟨chars "ka", []⟩ '\x7f').buffer = (chars "ka").dropLast ∧
        (imeStep [] ⟨chars "ka", []⟩ '\x7f').output = []) := by
  refine ⟨Or.inl rfl, ?_, ?_, ?_⟩
  · exact (delete_key_behavior [] ⟨[], chars "AB"⟩ '\x7f' (Or.inl rfl)).1 rfl (by decide)
  · exact (delete_key_behavior [] ⟨[], []⟩ '\x7f' (Or.inl rfl)).2.1 rfl rfl
  · exact (delete_key_behavior [] ⟨chars "ka", []⟩ '\x7f' (Or.inl rfl)).2.2 (by decide)

/-- C8: with a non-empty buffer and a non-empty suggestion list, the space
keystroke (accept-first) appends the first suggestion's text to the output
and clears the buffer; the state has no other components. -/
theorem accept_first_commit (db : List WordEntry) (st : IMEState) (m : ScoredMatch)
    (rest : List ScoredMatch) (hb : st.buffer ≠ []) (hs : suggestions db st = m :: rest) :
    (imeStep db st ' ').buffer = [] ∧ (imeStep db st ' ').output = st.output ++ m.thai := by
  obtain ⟨b, bs, hbuf⟩ : ∃ b bs, st.buffer = b :: bs := by
    cases hcase : st.buffer with
    | nil => exact absurd hcase hb
    | cons b bs => exact ⟨b, bs, rfl⟩
  simp only [imeStep, if_neg (by decide : ¬(' ' = '\x03' ∨ ' ' = '\x1b')),
    if_neg (by decide : ¬(' ' = '\x7f' ∨ ' ' = '\x08')), if_pos rfl, hs, hbuf]
  exact ⟨rfl, by trivial⟩


theorem suggestions_ka : suggestions kaDb ⟨chars "ka", []⟩ = [kaM] := by
  simp only [suggestions, if_pos (by decide : (⟨chars "ka", []⟩ : IMEState).buffer ≠ [])]
  exact fm_ka_kaDb

theorem accept_first_commit_witness :
    (⟨chars "ka", []⟩ : IMEState).buffer ≠ [] ∧
      suggestions kaDb ⟨chars "ka", []⟩ = kaM :: [] ∧
      (imeStep kaDb ⟨chars "ka", []⟩ ' ').buffer = [] ∧
      (imeStep kaDb ⟨chars "ka", []⟩ ' ').output = [] ++ kaM.thai := by
  obtain ⟨hb, ho⟩ := accept_first_commit kaDb ⟨chars "ka", []⟩ kaM [] (by decide)
    suggestions_ka
  exact ⟨by decide, suggestions_ka, hb, ho⟩

/-- C9: the digit keys 1–5 are intercepted before the printable-character
branch and are never appended to the buffer: with a non-empty buffer and at
least N suggestions, digit N commits the Nth suggestion (appends its text to
the output and clears the buffer); in every other state (empty buffer or
fewer than N suggestions) the whole state is unchanged. -/
theorem digit_select (db : List WordEntry) (st : IMEState) (ch : Char)
    (hch : ch ∈ chars "12345") :
    ((st.buffer ≠ [] ∧ ch.toNat - '0'.toNat - 1 < (suggestions db st).length) →
      (imeStep db st ch).buffer = [] ∧
        ∃ m, (suggestions db st)[ch.toNat - '0'.toNat - 1]? = some m ∧
          (imeStep db st ch).output = st.output ++ m.thai) ∧
    ((st.buffer = [] ∨ (suggestions db st).length ≤ ch.toNat - '0'.toNat - 1) →
      imeStep db st ch = st) := by
  have hd5 : ch = '1' ∨ ch = '2' ∨ ch = '3' ∨ ch = '4' ∨ ch = '5' := by
    simpa [chars] using hch
  have h1 : ¬(ch = '\x03' ∨ ch = '\x1b') := by
    rcases hd5 with rfl | rfl | rfl | rfl | rfl <;> decide
  have h2 : ¬(ch = '\x7f' ∨ ch = '\x08') := by
    rcases hd5 with rfl | rfl | rfl | rfl | rfl <;> decide
  have h3 : ¬(ch = ' ') := by
    rcases hd5 with rfl | rfl | rfl | rfl | rfl <;> decide
  constructor
  · rintro ⟨hb, hlt⟩
    have hms : suggestions db st ≠ [] := by
      intro hnil
      rw [hnil] at hlt
      simp at hlt
    simp only [imeStep, if_neg h1, if_neg h2, if_neg h3, if_pos hch,
      dif_pos (⟨hb, hms, hlt⟩ : st.buffer ≠ [] ∧ suggestions db st ≠ [] ∧
        ch.toNat - '0'.toNat - 1 < (suggestions db st).length)]
    refine ⟨by trivial, (suggestions db st).get ⟨ch.toNat - '0'.toNat - 1, hlt⟩, ?_,
      by trivial⟩
    rw [List.getElem?_eq_getElem hlt]
    rfl
  · intro hfail
    have hneg : ¬(st.buffer ≠ [] ∧ suggestions db st ≠ [] ∧
        ch.toNat - '0'.toNat - 1 < (suggestions db st).length) := by
      rcases hfail with hb | hlen
      · simp [hb]
      · rintro ⟨-, -, hlt⟩
        omega
    simp only [imeStep, if_neg h1, if_neg h2, if_neg h3, if_pos hch, dif_neg hneg]

theorem digit_select_witness :
    ('1' ∈ chars "12345") ∧
      ((imeStep kaDb ⟨chars "ka", []⟩ '1').buffer = [] ∧
        (imeStep kaDb ⟨chars "ka", []⟩ '1').output = [] ++ kaM.thai) ∧
      imeStep kaDb ⟨[], chars "A"⟩ '1' = ⟨[], chars "A"⟩ := by
  refine ⟨by decide, ?_, ?_⟩
  · obtain ⟨hb, m, hm, ho⟩ := (digit_select kaDb ⟨chars "ka", []⟩ '1' (by decide)).1
      ⟨by decide, by rw [suggestions_ka]; decide⟩
    rw [suggestions_ka] at hm
    have hmk : m = kaM := by
      simpa using hm.symm
    rw [hmk] at ho
    exact ⟨hb, ho⟩
  · exact (digit_select kaDb ⟨[], chars "A"⟩ '1' (by decide)).2 (Or.inl rfl)

theorem compound_never_outranks_exact_witness :
    compoundM ∈ find_matches (chars "kaka") demoDb 5 ∧
      kakaM ∈ find_matches (chars "kaka") demoDb 5 ∧
      compoundM.match_type = "compound" ∧ kakaM.match_type = "exact" ∧
      compoundM.score < kakaM.score := by
  have hmem1 : compoundM ∈ find_matches (chars "kaka") demoDb 5 := by
    rw [fm_kaka_demoDb]
    exact List.mem_cons_of_mem _ (List.mem_singleton.mpr rfl)
  have hmem2 : kakaM ∈ find_matches (chars "kaka") demoDb 5 := by
    rw [fm_kaka_demoDb]
    exact List.mem_cons_self _ _
  exact ⟨hmem1, hmem2, rfl, kakaM_mt,
    compound_never_outranks_exact demoDb (chars "kaka") 5 compoundM kakaM hmem1 hmem2
      rfl kakaM_mt⟩

theorem compound_score_bounds_witness :
    compoundM ∈ find_compound_matches_db (chars "kaka") demoDb 5 ∧
      20 ≤ compoundM.score ∧ compoundM.score ≤ 110 := by
  have hmem : compoundM ∈ find_compound_matches_db (chars "kaka") demoDb 5 := by
    rw [fcmdb_kaka_demoDb]
    exact List.mem_singleton.mpr rfl
  exact ⟨hmem, compound_score_bounds demoDb (chars "kaka") 5 compoundM hmem⟩

theorem partial_vs_soundex_exact_bound_witness :
    levenshtein_distance (chars "ka") kabEntry.romanized =
        levenshtein_distance (chars "ka") caEntry.romanized ∧
      (scoreEntry (chars "ka") (chars "1A") kabEntry).match_type = "soundex_partial" ∧
      (scoreEntry (chars "ka") (chars "1A") caEntry).match_type = "soundex_exact" ∧
      (scoreEntry (chars "ka") (chars "1A") kabEntry).score ≤
        (scoreEntry (chars "ka") (chars "1A") caEntry).score + 40 :=
  ⟨by decide, kab_mt, ca_mt,
    (partial_vs_soundex_exact_bound (chars "ka") (chars "1A") kabEntry caEntry
      (by decide) kab_mt ca_mt).2⟩

/-! ### The leading digit of the phonetic code (C3) -/

theorem mem_of_lookup_eq_some {c d : Char} {l : List (Char × Char)}
    (h : l.lookup c = some d) : (c, d) ∈ l := by
  induction l with
  | nil => simp [List.lookup] at h
  | cons p ps ih =>
    obtain ⟨k, v⟩ := p
    rw [List.lookup] at h
    split at h
    · rename_i heq
      simp only [Option.some.injEq] at h
      have hkc : c = k := by simpa using heq
      subst hkc
      subst h
      exact List.mem_cons_self _ _
    · exact List.mem_cons_of_mem _ (ih h)

theorem consonant_facts {x d : Char} (hmap : charMap x = some d)
    (hd : d ∈ chars "123456789") :
    x.toLower = x ∧ ¬(x.isWhitespace = true) ∧ ¬(x ∈ chars "aeiou") := by
  have hmem : (x, d) ∈ charMapPairs := mem_of_lookup_eq_some hmap
  revert hd
  have hall : ∀ p ∈ charMapPairs, p.2 ∈ chars "123456789" →
      p.1.toLower = p.1 ∧ ¬(p.1.isWhitespace = true) ∧ ¬(p.1 ∈ chars "aeiou") := by decide
  exact fun hd => hall (x, d) hmem hd

theorem replace2_head (a b r : Char) (l : List Char) :
    (replace2 a b r l).head? = l.head? ∨ (replace2 a b r l).head? = some r := by
  match l with
  | [] => exact Or.inl rfl
  | [x] => exact Or.inl rfl
  | x :: y :: rest =>
    rw [replace2]
    split
    · exact Or.inr rfl
    · exact Or.inl rfl

theorem replace2_cons (a b r x : Char) (l : List Char)
    (h : ¬(x = a ∧ l.head? = some b)) :
    replace2 a b r (x :: l) = x :: replace2 a b r l := by
  match l with
  | [] => rfl
  | c :: cs =>
    rw [replace2, if_neg]
    rintro ⟨rfl, rfl⟩
    exact h ⟨rfl, rfl⟩

theorem foldl_replace2_cons (x : Char) :
    ∀ (ps : List (Char × Char × Char)) (u : List Char),
      (∀ p ∈ ps, (p.1 ≠ x ∨ p.2.1 = 'g' ∨ p.2.1 = 'h') ∧ p.2.2 ≠ 'g' ∧ p.2.2 ≠ 'h') →
      (∀ c, u.head? = some c → c ≠ 'g' ∧ c ≠ 'h') →
      ps.foldl (fun t p => replace2 p.1 p.2.1 p.2.2 t) (x :: u) =
        x :: ps.foldl (fun t p => replace2 p.1 p.2.1 p.2.2 t) u := by
  intro ps
  induction ps with
  | nil => intro u _ _; rfl
  | cons p ps' ih =>
    intro u hps hu
    rw [List.foldl_cons, List.foldl_cons]
    have hstep : replace2 p.1 p.2.1 p.2.2 (x :: u) = x :: replace2 p.1 p.2.1 p.2.2 u := by
      apply replace2_cons
      rintro ⟨rfl, hhd⟩
      obtain ⟨hp1, -, -⟩ := hps p (List.mem_cons_self _ _)
      rcases hp1 with hne | hgh | hgh
      · exact hne rfl
      · exact (hu p.2.1 hhd).1 hgh
      · exact (hu p.2.1 hhd).2 hgh
    rw [hstep]
    apply ih
    · intro q hq
      exact hps q (List.mem_cons_of_mem _ hq)
    · intro c hc
      obtain ⟨-, hg, hh⟩ := hps p (List.mem_cons_self _ _)
      rcases replace2_head p.1 p.2.1 p.2.2 u with heq | heq <;> rw [heq] at hc
      · exact hu c hc
      · obtain rfl : p.2.2 = c := by simpa using hc
        exact ⟨hg, hh⟩

theorem pyStrip_cons (x : Char) (l : List Char) (hx : ¬(x.isWhitespace = true)) :
    pyStrip (x :: l) = x :: (l.reverse.dropWhile Char.isWhitespace).reverse := by
  unfold pyStrip
  rw [List.dropWhile_cons, if_neg hx, List.reverse_cons, List.dropWhile_append]
  split
  · next hemp =>
    rw [List.isEmpty_iff] at hemp
    rw [List.dropWhile_cons, if_neg hx, hemp]
    rfl
  · rw [List.reverse_append, List.reverse_cons, List.reverse_nil, List.nil_append]
    rfl

theorem stripTrailing_head (l : List Char) {c : Char}
    (h : ((l.reverse.dropWhile Char.isWhitespace).reverse).head? = some c) :
    l.head? = some c := by
  have hpre : (l.reverse.dropWhile Char.isWhitespace).reverse <+: l := by
    have hsuf := List.dropWhile_suffix (l := l.reverse) Char.isWhitespace
    have := List.reverse_prefix.mpr hsuf
    simpa using this
  obtain ⟨r, hr⟩ := hpre
  cases hcase : (l.reverse.dropWhile Char.isWhitespace).reverse with
  | nil => rw [hcase] at h; simp at h
  | cons a as =>
    rw [hcase] at h hr
    simp only [List.head?_cons, Option.some.injEq] at h
    rw [← hr, List.cons_append, List.head?_cons]
    rw [h]

theorem collapseRuns_head : ∀ (l : List Char) (a : Char),
    (collapseRuns (a :: l)).head? = some a := by
  intro l
  induction l with
  | nil => intro a; rfl
  | cons b rest ih =>
    intro a
    rw [collapseRuns]
    split
    · next hab => rw [hab]; exact ih b
    · rfl

theorem head?_take6 {l : List Char} {a : Char} (h : l.head? = some a) :
    (pySlice l 6).head? = some a := by
  unfold pySlice
  rw [if_pos (by norm_num)]
  cases l with
  | nil => simp at h
  | cons x xs =>
    simp only [List.head?_cons, Option.some.injEq] at h
    rw [show ((6 : ℤ).toNat) = 6 from rfl]
    rw [List.take_cons]
    · simp [h]
    · omega

theorem thai_soundex_head (x d : Char) (t : List Char)
    (hmap : charMap x = some d) (hd : d ∈ chars "123456789")
    (ht : ∀ c, t.head? = some c → Char.toLower c ≠ 'g' ∧ Char.toLower c ≠ 'h') :
    (thai_soundex (x :: t) 6).head? = some d := by
  obtain ⟨hlow, hws, hvow⟩ := consonant_facts hmap hd
  have htext : pyStrip (pyLower (x :: t)) =
      x :: ((pyLower t).reverse.dropWhile Char.isWhitespace).reverse := by
    show pyStrip (x.toLower :: pyLower t) = _
    rw [hlow]
    exact pyStrip_cons x (pyLower t) hws
  have hu : ∀ c, (((pyLower t).reverse.dropWhile Char.isWhitespace).reverse).head? =
      some c → c ≠ 'g' ∧ c ≠ 'h' := by
    intro c hc
    have hltc := stripTrailing_head (pyLower t) hc
    obtain ⟨c0, hc0, rfl⟩ : ∃ c0, t.head? = some c0 ∧ c0.toLower = c := by
      cases t with
      | nil => simp [pyLower] at hltc
      | cons a as =>
        simp only [pyLower, List.map_cons, List.head?_cons, Option.some.injEq] at hltc
        exact ⟨a, rfl, hltc⟩
    exact ht c0 hc0
  have hrepl : applyReplacements (pyStrip (pyLower (x :: t))) =
      x :: applyReplacements (((pyLower t).reverse.dropWhile Char.isWhitespace).reverse) := by
    rw [htext]
    unfold applyReplacements
    apply foldl_replace2_cons x soundexReplacements _ _ hu
    have hpat : ∀ p ∈ soundexReplacements,
        (p.2.1 = 'g' ∨ p.2.1 = 'h' ∨ p.1 ∈ chars "aeiou") ∧
          p.2.2 ≠ 'g' ∧ p.2.2 ≠ 'h' := by decide
    intro p hp
    obtain ⟨hp1, hp2⟩ := hpat p hp
    refine ⟨?_, hp2⟩
    rcases hp1 with hg | hh | hvowp
    · exact Or.inr (Or.inl hg)
    · exact Or.inr (Or.inr hh)
    · exact Or.inl (fun heq => hvow (heq ▸ hvowp))
  have hfilter : (soundexFilter (applyReplacements (pyStrip (pyLower (x :: t))))).head? =
      some d := by
    rw [hrepl]
    simp only [soundexFilter, List.filterMap_cons, hmap]
    rfl
  have hcoll : (collapseRuns (soundexFilter
      (applyReplacements (pyStrip (pyLower (x :: t)))))).head? = some d := by
    cases hcase : soundexFilter (applyReplacements (pyStrip (pyLower (x :: t)))) with
    | nil => rw [hcase] at hfilter; simp at hfilter
    | cons a as =>
      rw [hcase] at hfilter
      simp only [List.head?_cons, Option.some.injEq] at hfilter
      rw [← hfilter]
      exact collapseRuns_head as a
  unfold thai_soundex
  rw [if_neg (by rw [htext]; simp)]
  exact head?_take6 hcoll

/-- C3 counterexample: `k` and `c` belong to the same articulatory class
(`char_map` sends both to `'1'`), yet with the common suffix `"hat"` the
codes `thai_soundex "khat" = "1A3"` and `thai_soundex "chat" = "6A3"` start
with different digits, because the digraph substitutions `"kh" → "1"` and
`"ch" → "6"` fire before the per-character map. -/
theorem same_class_leading_digit_cex :
    charMap 'k' = charMap 'c' ∧
      (thai_soundex ('k' :: chars "hat") 6).head? ≠
        (thai_soundex ('c' :: chars "hat") 6).head? := by
  constructor
  · rfl
  · decide

/-- C3 (amended): two consonants of the same articulatory class followed by
the same suffix yield phonetic codes with the same leading digit (namely the
class digit), PROVIDED the suffix does not start with a letter that
lower-cases to `'g'` or `'h'` — otherwise a multi-character digraph
substitution (`ng`, `ch`, `kh`, `ph`, `th`) can consume the junction, as the
counterexample with `k`/`c` and suffix `"hat"` shows. -/
theorem same_class_same_leading_digit (x y d : Char) (t : List Char)
    (hx : charMap x = some d) (hy : charMap y = some d) (hd : d ∈ chars "123456789")
    (ht : ∀ c, t.head? = some c → Char.toLower c ≠ 'g' ∧ Char.toLower c ≠ 'h') :
    (thai_soundex (x :: t) 6).head? = (thai_soundex (y :: t) 6).head? ∧
      (thai_soundex (x :: t) 6).head? = some d := by
  have h1 := thai_soundex_head x d t hx hd ht
  have h2 := thai_soundex_head y d t hy hd ht
  exact ⟨h1.trans h2.symm, h1⟩

theorem same_class_same_leading_digit_witness :
    charMap 'k' = some '1' ∧ charMap 'g' = some '1' ∧ '1' ∈ chars "123456789" ∧
      (thai_soundex ('k' :: chars "at") 6).head? =
        (thai_soundex ('g' :: chars "at") 6).head? ∧
      (thai_soundex ('k' :: chars "at") 6).head? = some '1' := by
  obtain ⟨heq, hval⟩ := same_class_same_leading_digit 'k' 'g' '1' (chars "at")
    (by decide) (by decide) (by decide) (by decide)
  exact ⟨rfl, rfl, by decide, heq, hval⟩
